import Mathlib

/-!
Shallow embedding of the extenderr error-annotation package.

The repository holds two near-duplicate revisions of the same design:
one file with four single-capability wrapper types (`withHumanMessage`,
`withErrorCode`, `withHttpStatus`, `withTags`) whose chain walker guards a
nil chain at entry, and one file with a combined named/tagged wrapper type
(`extended`) whose chain walker has no nil guard.  Both are embedded here;
definitions carry the Go names where Lean allows it.
-/

/-- A Go `interface\x7b\x7d` value as used for tag keys and values: the
repository's code and examples only ever use strings and integers. -/
inductive Val where
  | str (s : String)
  | int (n : Int)
deriving DecidableEq, Repr

/-- A Go `error` interface value.  `nil` is the nil interface.  The wrapper
constructors are the concrete error types defined by the repository; `base`
is an external error with no optional capabilities (e.g. `errors.New`), and
`taggedOnly` is an external error implementing the package's `tagger`
capability but not `Unwrap` (the package documentation states the capability
interfaces are stable for outside implementations). -/
inductive Err where
  | nil
  | base (msg : String)
  | taggedOnly (keysAndValues : List Val) (msg : String)
  | withHumanMessage (inner : Err) (message : String)
  | withErrorCode (inner : Err) (errorCode : Int)
  | withHttpStatus (inner : Err) (httpStatus : Int)
  | withTags (inner : Err) (keysAndValues : List Val)
  | extended (inner : Err) (name : String) (keysAndValues : List Val)
deriving DecidableEq, Repr

/-- Go type assertion `err.(wrapper)` / `err.(causer)` for the go1.13
`Unwrap() error` capability: which values expose it and what it returns.
The assertion fails on the nil interface and on capability-free errors. -/
def unwrapOf : Err → Option Err
  | .withHumanMessage i _ => some i
  | .withErrorCode i _ => some i
  | .withHttpStatus i _ => some i
  | .withTags i _ => some i
  | .extended i _ _ => some i
  | _ => none

/-- Go type assertion `err.(humanMessage)`. -/
def humanMessageOf : Err → Option String
  | .withHumanMessage _ m => some m
  | _ => none

/-- Go type assertion `err.(errorCoder)`. -/
def errorCoderOf : Err → Option Int
  | .withErrorCode _ c => some c
  | _ => none

/-- Go type assertion `err.(httpStatuser)`. -/
def httpStatuserOf : Err → Option Int
  | .withHttpStatus _ s => some s
  | _ => none

/-- Go type assertion `err.(tagger)` (resp. `err.(tagged)`): both interfaces
are `Tags() []interface\x7b\x7d`, implemented by `withTags`, by `extended`,
and by any outside error carrying tags. -/
def taggerOf : Err → Option (List Val)
  | .withTags _ kv => some kv
  | .extended _ _ kv => some kv
  | .taggedOnly kv _ => some kv
  | _ => none

/-- Go type assertion `err.(*extended)` used by `IsNamed`. -/
def extendedOf : Err → Option (Err × String × List Val)
  | .extended i n kv => some (i, n, kv)
  | _ => none

/-- The loop shared by both revisions of `walkErrorChain`, entered at a
current error: run the visitor `f` on it; on `true` stop with `true`; if the
node has no `Unwrap` capability, break out and run `f` once more on the same
node (the Go function's final `return f(err)`); if `Unwrap` yields nil the
loop condition fails and the final `f` runs on the nil interface; otherwise
continue the loop at the inner error.  The Go visitor is a closure mutating
captured variables; those variables are threaded here as the state `s`. -/
def walkLoop (f : σ → Err → σ × Bool) : σ → Err → σ × Bool
  | s, .nil => f s .nil
  | s, .base m =>
      let r := f s (.base m)
      if r.2 then (r.1, true) else f r.1 (.base m)
  | s, .taggedOnly kv m =>
      let r := f s (.taggedOnly kv m)
      if r.2 then (r.1, true) else f r.1 (.taggedOnly kv m)
  | s, .withHumanMessage i m =>
      let r := f s (.withHumanMessage i m)
      if r.2 then (r.1, true) else walkLoop f r.1 i
  | s, .withErrorCode i c =>
      let r := f s (.withErrorCode i c)
      if r.2 then (r.1, true) else walkLoop f r.1 i
  | s, .withHttpStatus i c =>
      let r := f s (.withHttpStatus i c)
      if r.2 then (r.1, true) else walkLoop f r.1 i
  | s, .withTags i kv =>
      let r := f s (.withTags i kv)
      if r.2 then (r.1, true) else walkLoop f r.1 i
  | s, .extended i n kv =>
      let r := f s (.extended i n kv)
      if r.2 then (r.1, true) else walkLoop f r.1 i

/-- `walkErrorChain` of the four-wrapper revision: a nil chain returns false
at once, before the visitor can run. -/
def walkErrorChain (err : Err) (f : σ → Err → σ × Bool) (s : σ) : σ × Bool :=
  if err = .nil then (s, false) else walkLoop f s err

/-- `walkErrorChain` of the named/tagged revision: no nil guard, so on a nil
chain the loop body never runs and the final `return f(err)` invokes the
visitor once on the nil interface. -/
def walkErrorChainN (err : Err) (f : σ → Err → σ × Bool) (s : σ) : σ × Bool :=
  walkLoop f s err

/-- `WithHumanMessage` wraps the error with a message intended for end
users; nil in, nil out. -/
def WithHumanMessage (err : Err) (message : String) : Err :=
  if err = .nil then err else .withHumanMessage err message

/-- `WithErrorCode` wraps the error with an error code; nil in, nil out. -/
def WithErrorCode (err : Err) (errorCode : Int) : Err :=
  if err = .nil then err else .withErrorCode err errorCode

/-- `WithHttpStatus` wraps the error with an http status; nil in, nil out. -/
def WithHttpStatus (err : Err) (status : Int) : Err :=
  if err = .nil then err else .withHttpStatus err status

/-- `WithTags` wraps an error with key/value tags; nil in, nil out. -/
def WithTags (err : Err) (keysAndValues : List Val) : Err :=
  if err = .nil then err else .withTags err keysAndValues

/-- `NewNamed` builds the combined named/tagged wrapper.  Note: the Go
source performs no nil check here. -/
def NewNamed (err : Err) (name : String) (keysAndValues : List Val) : Err :=
  .extended err name keysAndValues

/-- `NewTags` builds an unnamed combined wrapper.  Note: the Go source
performs no nil check here. -/
def NewTags (err : Err) (keysAndValues : List Val) : Err :=
  .extended err "" keysAndValues

/-- `HumanMessage` returns the first (outermost) human message encountered
in the chain; the visitor records every match and stops once the recorded
message is non-empty. -/
def HumanMessage (errToWalk : Err) : String :=
  if errToWalk = .nil then ""
  else
    (walkErrorChain errToWalk (fun message err =>
      let message := match humanMessageOf err with
        | some m => m
        | none => message
      (message, message != "")) "").1

/-- `ErrorCode` returns the first (outermost) error code encountered in the
chain; the visitor records every match and stops once the recorded code is
non-zero. -/
def ErrorCode (errToWalk : Err) : Int :=
  if errToWalk = .nil then 0
  else
    (walkErrorChain errToWalk (fun errorCode err =>
      let errorCode := match errorCoderOf err with
        | some c => c
        | none => errorCode
      (errorCode, errorCode != 0)) 0).1

/-- `HttpStatus` returns the first (outermost) http status encountered in
the chain; the visitor records every match and stops once the recorded
status is non-zero. -/
def HttpStatus (errToWalk : Err) : Int :=
  if errToWalk = .nil then 0
  else
    (walkErrorChain errToWalk (fun status err =>
      let status := match httpStatuserOf err with
        | some s => s
        | none => status
      (status, status != 0)) 0).1

/-- A Go `map[interface\x7b\x7d]interface\x7b\x7d` as an association list;
`mapInsert` models the assignment `m[k] = v` (overwrite on an existing
key), `mapLookup` models the read `m[k]`. -/
def mapInsert (m : List (Val × Val)) (k v : Val) : List (Val × Val) :=
  if m.any (fun p => p.1 == k) then
    m.map (fun p => if p.1 == k then (k, v) else p)
  else m ++ [(k, v)]

/-- Read a key from the association-list model of a Go map. -/
def mapLookup (m : List (Val × Val)) (k : Val) : Option Val :=
  (m.find? (fun p => p.1 == k)).map (fun p => p.2)

/-- The `for i:=0; i<len(tags); i=i+2` insertion loop of `TagMap` and
`GetTagMap`, inserting consecutive key/value pairs left to right. -/
def insertPairs (m : List (Val × Val)) : List Val → List (Val × Val)
  | k :: v :: rest => insertPairs (mapInsert m k v) rest
  | _ => m

/-- The body of the `TagMap`/`GetTagMap` visitor on one node: if the node
carries tags, pad an odd payload with the sentinel `"unbalanced tag"` and
insert the pairs. -/
def tagMapStep (allTags : List (Val × Val)) (err : Err) : List (Val × Val) :=
  match taggerOf err with
  | some tags =>
      let tags := if tags.length % 2 != 0 then tags ++ [Val.str "unbalanced tag"] else tags
      insertPairs allTags tags
  | none => allTags

/-- `Tags` (four-wrapper revision): concatenates every tag payload met while
walking the chain. -/
def Tags (errToWalk : Err) : List Val :=
  (walkErrorChain errToWalk (fun allTags err =>
    match taggerOf err with
    | some ts => (allTags ++ ts, false)
    | none => (allTags, false)) []).1

/-- `TagMap` (four-wrapper revision): merges all tags into a map, padding
odd payloads; later (inner) insertions overwrite earlier ones. -/
def TagMap (errToWalk : Err) : List (Val × Val) :=
  (walkErrorChain errToWalk (fun allTags err => (tagMapStep allTags err, false)) []).1

/-- `GetTags` (named/tagged revision): same visitor as `Tags` over the
unguarded walker. -/
def GetTags (errToWalk : Err) : List Val :=
  (walkErrorChainN errToWalk (fun allTags err =>
    match taggerOf err with
    | some ts => (allTags ++ ts, false)
    | none => (allTags, false)) []).1

/-- `GetTagMap` (named/tagged revision): same visitor as `TagMap` over the
unguarded walker. -/
def GetTagMap (errToWalk : Err) : List (Val × Val) :=
  (walkErrorChainN errToWalk (fun allTags err => (tagMapStep allTags err, false)) []).1

/-- `IsNamed`: true only when the given error itself is an `extended` value
with a non-empty name equal to `name`; no chain walk. -/
def IsNamed (err : Err) (name : String) : Bool :=
  match extendedOf err with
  | some (_, n, _) => if n = "" then false else n == name
  | none => false

/-- `IsAnyCauseNamed`: walks the whole chain looking for a node satisfying
`IsNamed`. -/
def IsAnyCauseNamed (errToWalk : Err) (name : String) : Bool :=
  (walkErrorChainN errToWalk (fun s err => (s, IsNamed err name)) ()).2

/-- `errors.Cause` from the pkg/errors dependency: repeatedly follow the
`Cause() error` capability, which among the types here only `extended`
implements; stops at the first value without it (or at nil). -/
def errorsCause : Err → Err
  | .extended i _ _ => errorsCause i
  | e => e

/-- `IsRootCauseNamed`: checks `IsNamed` on the resolved root cause only. -/
def IsRootCauseNamed (errToWalk : Err) (name : String) : Bool :=
  IsNamed (errorsCause errToWalk) name

/-- The `Error()` method of each error value.  `none` models the run-time
panic of calling `Error()` on a nil inner interface (`extended` rendering
is `name + ": " + cause`; the tag wrapper renders its inner unchanged). -/
def errorMessage : Err → Option String
  | .nil => none
  | .base m => some m
  | .taggedOnly _ m => some m
  | .withHumanMessage i m => (errorMessage i).map (fun s => m ++ ": " ++ s)
  | .withErrorCode i c =>
      (errorMessage i).map (fun s => "error code " ++ toString c ++ " : " ++ s)
  | .withHttpStatus i c =>
      (errorMessage i).map (fun s => "http status " ++ toString c ++ " : " ++ s)
  | .withTags i _ => errorMessage i
  | .extended i n _ => (errorMessage i).map (fun s => n ++ ": " ++ s)

/-- The chain nodes in walk order (each loop entry), outermost first; a nil
chain has no nodes. -/
def chainNodes : Err → List Err
  | .nil => []
  | .base m => [.base m]
  | .taggedOnly kv m => [.taggedOnly kv m]
  | .withHumanMessage i m => .withHumanMessage i m :: chainNodes i
  | .withErrorCode i c => .withErrorCode i c :: chainNodes i
  | .withHttpStatus i c => .withHttpStatus i c :: chainNodes i
  | .withTags i kv => .withTags i kv :: chainNodes i
  | .extended i n kv => .extended i n kv :: chainNodes i

/-- The node at which the walk breaks because it has no `Unwrap`
capability; `none` when the chain instead bottoms out in a nil inner
error (the loop then exits on its nil test). -/
def terminalOf : Err → Option Err
  | .nil => none
  | .base m => some (.base m)
  | .taggedOnly kv m => some (.taggedOnly kv m)
  | .withHumanMessage i _ => terminalOf i
  | .withErrorCode i _ => terminalOf i
  | .withHttpStatus i _ => terminalOf i
  | .withTags i _ => terminalOf i
  | .extended i _ _ => terminalOf i

/-- Spec-side resolution policy for a string capability: the first node in
chain order whose capability value is non-empty wins; empty otherwise. -/
def firstNonzeroString (cap : Err → Option String) : List Err → String
  | [] => ""
  | e :: rest =>
      match cap e with
      | some m => if m != "" then m else firstNonzeroString cap rest
      | none => firstNonzeroString cap rest

/-- Spec-side resolution policy for an integer capability: the first node in
chain order whose capability value is non-zero wins; zero otherwise. -/
def firstNonzeroInt (cap : Err → Option Int) : List Err → Int
  | [] => 0
  | e :: rest =>
      match cap e with
      | some c => if c != 0 then c else firstNonzeroInt cap rest
      | none => firstNonzeroInt cap rest

/-- The tags the walking collectors gather from a chain: each node's payload
once in walk order, except a terminal tag-capable node without `Unwrap`,
whose payload the walker's doubled final visit collects twice. -/
def collectedTags : Err → List Val
  | .nil => []
  | .base _ => []
  | .taggedOnly kv _ => kv ++ kv
  | .withHumanMessage i _ => collectedTags i
  | .withErrorCode i _ => collectedTags i
  | .withHttpStatus i _ => collectedTags i
  | .withTags i kv => kv ++ collectedTags i
  | .extended i _ kv => kv ++ collectedTags i

/-- Instrumented walk over the guarded walker: the pure per-node visitor
`g` runs at each visit and every invocation is recorded in order. -/
def walkLog (g : Err → Bool) (err : Err) : List Err × Bool :=
  walkErrorChain err (fun s e => (s ++ [e], g e)) []

/-! Helper lemmas -/

/-- A chain has no nodes exactly when it is nil. -/
theorem chainNodes_eq_nil_iff (e : Err) : chainNodes e = [] ↔ e = .nil := by
  cases e <;> simp [chainNodes]

/-- Characterization of the singular-extraction loop for a string
capability: the final recorded value is the first non-empty capability
value in visit order, and the loop's boolean is its non-emptiness test. -/
theorem walkLoop_firstString (cap : Err → Option String) (hnil : cap .nil = none)
    (e : Err) :
    walkLoop (fun message err =>
      let message := match cap err with
        | some m => m
        | none => message
      (message, message != "")) "" e
    = (firstNonzeroString cap (chainNodes e),
       firstNonzeroString cap (chainNodes e) != "") := by
  induction e with
  | nil => simp [walkLoop, hnil, chainNodes, firstNonzeroString]
  | base m =>
      cases hc : cap (.base m) with
      | some v =>
          by_cases hv : v = ""
          · subst hv; simp [walkLoop, hc, chainNodes, firstNonzeroString]
          · simp [walkLoop, hc, chainNodes, firstNonzeroString, hv]
      | none => simp [walkLoop, hc, chainNodes, firstNonzeroString]
  | taggedOnly kv m =>
      cases hc : cap (.taggedOnly kv m) with
      | some v =>
          by_cases hv : v = ""
          · subst hv; simp [walkLoop, hc, chainNodes, firstNonzeroString]
          · simp [walkLoop, hc, chainNodes, firstNonzeroString, hv]
      | none => simp [walkLoop, hc, chainNodes, firstNonzeroString]
  | withHumanMessage i m ih =>
      cases hc : cap (.withHumanMessage i m) with
      | some v =>
          by_cases hv : v = ""
          · subst hv; simpa [walkLoop, hc, chainNodes, firstNonzeroString] using ih
          · simp [walkLoop, hc, chainNodes, firstNonzeroString, hv]
      | none => simpa [walkLoop, hc, chainNodes, firstNonzeroString] using ih
  | withErrorCode i c ih =>
      cases hc : cap (.withErrorCode i c) with
      | some v =>
          by_cases hv : v = ""
          · subst hv; simpa [walkLoop, hc, chainNodes, firstNonzeroString] using ih
          · simp [walkLoop, hc, chainNodes, firstNonzeroString, hv]
      | none => simpa [walkLoop, hc, chainNodes, firstNonzeroString] using ih
  | withHttpStatus i c ih =>
      cases hc : cap (.withHttpStatus i c) with
      | some v =>
          by_cases hv : v = ""
          · subst hv; simpa [walkLoop, hc, chainNodes, firstNonzeroString] using ih
          · simp [walkLoop, hc, chainNodes, firstNonzeroString, hv]
      | none => simpa [walkLoop, hc, chainNodes, firstNonzeroString] using ih
  | withTags i kv ih =>
      cases hc : cap (.withTags i kv) with
      | some v =>
          by_cases hv : v = ""
          · subst hv; simpa [walkLoop, hc, chainNodes, firstNonzeroString] using ih
          · simp [walkLoop, hc, chainNodes, firstNonzeroString, hv]
      | none => simpa [walkLoop, hc, chainNodes, firstNonzeroString] using ih
  | extended i n kv ih =>
      cases hc : cap (.extended i n kv) with
      | some v =>
          by_cases hv : v = ""
          · subst hv; simpa [walkLoop, hc, chainNodes, firstNonzeroString] using ih
          · simp [walkLoop, hc, chainNodes, firstNonzeroString, hv]
      | none => simpa [walkLoop, hc, chainNodes, firstNonzeroString] using ih

/-- Characterization of the singular-extraction loop for an integer
capability, analogous to `walkLoop_firstString`. -/
theorem walkLoop_firstInt (cap : Err → Option Int) (hnil : cap .nil = none)
    (e : Err) :
    walkLoop (fun code err =>
      let code := match cap err with
        | some c => c
        | none => code
      (code, code != 0)) 0 e
    = (firstNonzeroInt cap (chainNodes e),
       firstNonzeroInt cap (chainNodes e) != 0) := by
  induction e with
  | nil => simp [walkLoop, hnil, chainNodes, firstNonzeroInt]
  | base m =>
      cases hc : cap (.base m) with
      | some v =>
          by_cases hv : v = 0
          · subst hv; simp [walkLoop, hc, chainNodes, firstNonzeroInt]
          · simp [walkLoop, hc, chainNodes, firstNonzeroInt, hv]
      | none => simp [walkLoop, hc, chainNodes, firstNonzeroInt]
  | taggedOnly kv m =>
      cases hc : cap (.taggedOnly kv m) with
      | some v =>
          by_cases hv : v = 0
          · subst hv; simp [walkLoop, hc, chainNodes, firstNonzeroInt]
          · simp [walkLoop, hc, chainNodes, firstNonzeroInt, hv]
      | none => simp [walkLoop, hc, chainNodes, firstNonzeroInt]
  | withHumanMessage i m ih =>
      cases hc : cap (.withHumanMessage i m) with
      | some v =>
          by_cases hv : v = 0
          · subst hv; simpa [walkLoop, hc, chainNodes, firstNonzeroInt] using ih
          · simp [walkLoop, hc, chainNodes, firstNonzeroInt, hv]
      | none => simpa [walkLoop, hc, chainNodes, firstNonzeroInt] using ih
  | withErrorCode i c ih =>
      cases hc : cap (.withErrorCode i c) with
      | some v =>
          by_cases hv : v = 0
          · subst hv; simpa [walkLoop, hc, chainNodes, firstNonzeroInt] using ih
          · simp [walkLoop, hc, chainNodes, firstNonzeroInt, hv]
      | none => simpa [walkLoop, hc, chainNodes, firstNonzeroInt] using ih
  | withHttpStatus i c ih =>
      cases hc : cap (.withHttpStatus i c) with
      | some v =>
          by_cases hv : v = 0
          · subst hv; simpa [walkLoop, hc, chainNodes, firstNonzeroInt] using ih
          · simp [walkLoop, hc, chainNodes, firstNonzeroInt, hv]
      | none => simpa [walkLoop, hc, chainNodes, firstNonzeroInt] using ih
  | withTags i kv ih =>
      cases hc : cap (.withTags i kv) with
      | some v =>
          by_cases hv : v = 0
          · subst hv; simpa [walkLoop, hc, chainNodes, firstNonzeroInt] using ih
          · simp [walkLoop, hc, chainNodes, firstNonzeroInt, hv]
      | none => simpa [walkLoop, hc, chainNodes, firstNonzeroInt] using ih
  | extended i n kv ih =>
      cases hc : cap (.extended i n kv) with
      | some v =>
          by_cases hv : v = 0
          · subst hv; simpa [walkLoop, hc, chainNodes, firstNonzeroInt] using ih
          · simp [walkLoop, hc, chainNodes, firstNonzeroInt, hv]
      | none => simpa [walkLoop, hc, chainNodes, firstNonzeroInt] using ih


/-! Claim theorems -/

/-- C1 (amended): each singular extraction function returns the value of the
first node in chain order (outermost to innermost) whose capability value is
non-zero; capability-implementing nodes carrying the zero value are passed
over, and if no node carries a non-zero value, or the chain is nil, the zero
value is returned. -/
theorem singular_extraction_first_nonzero :
    (∀ e, HumanMessage e = firstNonzeroString humanMessageOf (chainNodes e)) ∧
    (∀ e, ErrorCode e = firstNonzeroInt errorCoderOf (chainNodes e)) ∧
    (∀ e, HttpStatus e = firstNonzeroInt httpStatuserOf (chainNodes e)) := by
  refine ⟨fun e => ?_, fun e => ?_, fun e => ?_⟩
  · by_cases h : e = Err.nil
    · subst h; rfl
    · unfold HumanMessage walkErrorChain
      rw [if_neg h, if_neg h, walkLoop_firstString humanMessageOf rfl e]
  · by_cases h : e = Err.nil
    · subst h; rfl
    · unfold ErrorCode walkErrorChain
      rw [if_neg h, if_neg h, walkLoop_firstInt errorCoderOf rfl e]
  · by_cases h : e = Err.nil
    · subst h; rfl
    · unfold HttpStatus walkErrorChain
      rw [if_neg h, if_neg h, walkLoop_firstInt httpStatuserOf rfl e]

/-- C1 counterexample: the outermost node implementing the human-message
capability carries the empty string, yet `HumanMessage` does not return that
first implementer's value (the empty string) but the inner node's value. -/
theorem humanMessage_skips_first_zero_implementer :
    HumanMessage (WithHumanMessage (WithHumanMessage (.base "b") "inner") "") = "inner"
    ∧ ("inner" : String) ≠ "" := by
  exact ⟨by decide, by decide⟩

/-- C4 (amended): the four single-capability constructors return a nil error
unchanged, but `NewNamed` and `NewTags` perform no nil check and allocate an
`extended` wrapper even around nil. -/
theorem constructors_nil_behavior :
    (∀ m, WithHumanMessage .nil m = .nil) ∧
    (∀ c, WithErrorCode .nil c = .nil) ∧
    (∀ s, WithHttpStatus .nil s = .nil) ∧
    (∀ kv, WithTags .nil kv = .nil) ∧
    (∀ n kv, NewNamed .nil n kv = .extended .nil n kv) ∧
    (∀ kv, NewTags .nil kv = .extended .nil "" kv) :=
  ⟨fun _ => rfl, fun _ => rfl, fun _ => rfl, fun _ => rfl,
   fun _ _ => rfl, fun _ => rfl⟩

/-- C4 counterexample: `NewNamed` called on nil returns a freshly allocated
wrapper, not the nil error unchanged. -/
theorem newNamed_nil_allocates : NewNamed .nil "N" [] ≠ .nil := by decide

/-- C5 (amended): for every non-nil error `e` and every non-zero code `c`,
`ErrorCode (WithErrorCode e c) = c`; and wrapping nil returns nil. -/
theorem errorCode_roundtrip (e : Err) (c : Int) (he : e ≠ .nil) (hc : c ≠ 0) :
    ErrorCode (WithErrorCode e c) = c ∧ WithErrorCode .nil c = .nil := by
  refine ⟨?_, rfl⟩
  unfold WithErrorCode
  rw [if_neg he]
  unfold ErrorCode walkErrorChain
  rw [if_neg (by simp), if_neg (by simp)]
  simp [walkLoop, errorCoderOf, hc]

/-- C5 witness: the amended round trip at `e = base "b"`, `c = 7`. -/
theorem errorCode_roundtrip_witness :
    ErrorCode (WithErrorCode (.base "b") 7) = 7 ∧ WithErrorCode .nil 7 = .nil :=
  errorCode_roundtrip (.base "b") 7 (by decide) (by decide)

/-- C5 counterexample: at `c = 0` and a non-nil `e` carrying error code 5,
`ErrorCode (WithErrorCode e 0)` returns 5, not the wrapped code 0. -/
theorem errorCode_roundtrip_fails_at_zero :
    ErrorCode (WithErrorCode (.withErrorCode (.base "b") 5) 0) = 5 ∧ (5 : Int) ≠ 0 := by
  exact ⟨by decide, by decide⟩

/-- C6: the code wrapper renders as `"error code {value} : "` followed by
the inner description, the status wrapper as `"http status {value} : "`
followed by the inner description, and the composed chain renders
byte-for-byte as `"http status 500 : error code 1 : X"`. -/
theorem rendering_roundtrip :
    (∀ (i : Err) (c : Int) (s : String), errorMessage i = some s →
      errorMessage (.withErrorCode i c) = some ("error code " ++ toString c ++ " : " ++ s)) ∧
    (∀ (i : Err) (c : Int) (s : String), errorMessage i = some s →
      errorMessage (.withHttpStatus i c) = some ("http status " ++ toString c ++ " : " ++ s)) ∧
    errorMessage (WithHttpStatus (WithErrorCode (.base "X") 1) 500)
      = some "http status 500 : error code 1 : X" := by
  refine ⟨fun i c s h => ?_, fun i c s h => ?_, by decide⟩
  · simp [errorMessage, h]
  · simp [errorMessage, h]

/-- C6 witness: the code-wrapper rendering rule at a concrete inner error. -/
theorem rendering_roundtrip_witness :
    errorMessage (.withErrorCode (.base "X") 1)
      = some ("error code " ++ toString (1 : Int) ++ " : " ++ "X") :=
  rendering_roundtrip.1 (.base "X") 1 "X" rfl

/-- C8: whenever a tag-capable node's payload has odd length, the tag-map
visitor pads it with the sentinel `"unbalanced tag"` before pairing, and in
particular `TagMap (WithTags base ["k"])` maps `"k"` to the sentinel. -/
theorem unbalanced_tag_recovery :
    (∀ (s : List (Val × Val)) (e : Err) (kv : List Val), taggerOf e = some kv →
      kv.length % 2 = 1 →
      tagMapStep s e = insertPairs s (kv ++ [Val.str "unbalanced tag"])) ∧
    mapLookup (TagMap (WithTags (.base "b") [.str "k"])) (.str "k")
      = some (.str "unbalanced tag") := by
  refine ⟨fun s e kv h hodd => ?_, by decide⟩
  simp [tagMapStep, h, hodd]

/-- C8 witness: the padding rule at a concrete single-entry payload. -/
theorem unbalanced_tag_recovery_witness :
    tagMapStep [] (.withTags .nil [.str "k"])
      = insertPairs [] ([Val.str "k"] ++ [Val.str "unbalanced tag"]) :=
  unbalanced_tag_recovery.1 [] (.withTags .nil [.str "k"]) [Val.str "k"] rfl (by decide)

/-- C9: every extraction function applied to the nil error returns its
type's zero value or an empty collection, without faulting. -/
theorem extractors_total_on_nil :
    HumanMessage .nil = "" ∧ ErrorCode .nil = 0 ∧ HttpStatus .nil = 0 ∧
    Tags .nil = [] ∧ TagMap .nil = [] ∧ GetTags .nil = [] ∧ GetTagMap .nil = [] ∧
    (∀ name, IsNamed .nil name = false) ∧
    (∀ name, IsAnyCauseNamed .nil name = false) ∧
    (∀ name, IsRootCauseNamed .nil name = false) :=
  ⟨rfl, rfl, rfl, rfl, rfl, rfl, rfl, fun _ => rfl, fun _ => rfl, fun _ => rfl⟩

/-! Further helper lemmas for the walker contract and tag collection -/

/-- The logging walk's accumulator only prepends: running the loop from any
log state equals the empty-state run with the state appended in front. -/
theorem walkLoop_log_append (g : Err → Bool) (e : Err) (s : List Err) :
    walkLoop (fun l x => (l ++ [x], g x)) s e
    = (s ++ (walkLoop (fun l x => (l ++ [x], g x)) [] e).1,
       (walkLoop (fun l x => (l ++ [x], g x)) [] e).2) := by
  induction e generalizing s with
  | nil => simp [walkLoop]
  | base m => by_cases hg : g (.base m) <;> simp [walkLoop, hg]
  | taggedOnly kv m => by_cases hg : g (.taggedOnly kv m) <;> simp [walkLoop, hg]
  | withHumanMessage i m ih =>
      by_cases hg : g (.withHumanMessage i m)
      · simp [walkLoop, hg]
      · simp only [walkLoop, hg, Bool.false_eq_true, if_false, List.nil_append]
        rw [ih (s ++ [Err.withHumanMessage i m]), ih [Err.withHumanMessage i m]]
        simp
  | withErrorCode i c ih =>
      by_cases hg : g (.withErrorCode i c)
      · simp [walkLoop, hg]
      · simp only [walkLoop, hg, Bool.false_eq_true, if_false, List.nil_append]
        rw [ih (s ++ [Err.withErrorCode i c]), ih [Err.withErrorCode i c]]
        simp
  | withHttpStatus i c ih =>
      by_cases hg : g (.withHttpStatus i c)
      · simp [walkLoop, hg]
      · simp only [walkLoop, hg, Bool.false_eq_true, if_false, List.nil_append]
        rw [ih (s ++ [Err.withHttpStatus i c]), ih [Err.withHttpStatus i c]]
        simp
  | withTags i kv ih =>
      by_cases hg : g (.withTags i kv)
      · simp [walkLoop, hg]
      · simp only [walkLoop, hg, Bool.false_eq_true, if_false, List.nil_append]
        rw [ih (s ++ [Err.withTags i kv]), ih [Err.withTags i kv]]
        simp
  | extended i n kv ih =>
      by_cases hg : g (.extended i n kv)
      · simp [walkLoop, hg]
      · simp only [walkLoop, hg, Bool.false_eq_true, if_false, List.nil_append]
        rw [ih (s ++ [Err.extended i n kv]), ih [Err.extended i n kv]]
        simp

/-- Full characterization of the logging walk on a chain that breaks at a
terminal node `t`, provided the visitor rejected every earlier node: the
walk logs each node once in order, and logs `t` a second time (the final
`return f(err)`) exactly when the visitor rejects `t` too. -/
theorem walkLoop_log_terminal (g : Err → Bool) (e t : Err) (front : List Err)
    (hterm : terminalOf e = some t)
    (hchain : chainNodes e = front ++ [t])
    (hfront : ∀ x ∈ front, g x = false) :
    walkLoop (fun l x => (l ++ [x], g x)) [] e
    = if g t then (front ++ [t], true) else (front ++ [t, t], false) := by
  induction e generalizing front with
  | nil => simp [terminalOf] at hterm
  | base m =>
      have ht : t = Err.base m := by
        simp [terminalOf] at hterm
        exact hterm.symm
      subst ht
      have hf : front = [] := by
        cases front with
        | nil => rfl
        | cons a fr => simp [chainNodes] at hchain
      subst hf
      by_cases hg : g (.base m) <;> simp [walkLoop, hg]
  | taggedOnly kv m =>
      have ht : t = Err.taggedOnly kv m := by
        simp [terminalOf] at hterm
        exact hterm.symm
      subst ht
      have hf : front = [] := by
        cases front with
        | nil => rfl
        | cons a fr => simp [chainNodes] at hchain
      subst hf
      by_cases hg : g (.taggedOnly kv m) <;> simp [walkLoop, hg]
  | withHumanMessage i m ih =>
      have hterm' : terminalOf i = some t := by simpa [terminalOf] using hterm
      cases front with
      | nil =>
          exfalso
          simp [chainNodes] at hchain
          rw [(chainNodes_eq_nil_iff i).mp hchain.2] at hterm'
          simp [terminalOf] at hterm'
      | cons a fr =>
          simp only [chainNodes, List.cons_append, List.cons.injEq] at hchain
          obtain ⟨h1, h2⟩ := hchain
          subst h1
          have hga : g (.withHumanMessage i m) = false := hfront _ (by simp)
          have hfr : ∀ x ∈ fr, g x = false := fun x hx => hfront x (by simp [hx])
          simp only [walkLoop, hga, Bool.false_eq_true, if_false]
          rw [walkLoop_log_append, ih fr hterm' h2 hfr]
          by_cases hgt : g t <;> simp [hgt]
  | withErrorCode i c ih =>
      have hterm' : terminalOf i = some t := by simpa [terminalOf] using hterm
      cases front with
      | nil =>
          exfalso
          simp [chainNodes] at hchain
          rw [(chainNodes_eq_nil_iff i).mp hchain.2] at hterm'
          simp [terminalOf] at hterm'
      | cons a fr =>
          simp only [chainNodes, List.cons_append, List.cons.injEq] at hchain
          obtain ⟨h1, h2⟩ := hchain
          subst h1
          have hga : g (.withErrorCode i c) = false := hfront _ (by simp)
          have hfr : ∀ x ∈ fr, g x = false := fun x hx => hfront x (by simp [hx])
          simp only [walkLoop, hga, Bool.false_eq_true, if_false]
          rw [walkLoop_log_append, ih fr hterm' h2 hfr]
          by_cases hgt : g t <;> simp [hgt]
  | withHttpStatus i c ih =>
      have hterm' : terminalOf i = some t := by simpa [terminalOf] using hterm
      cases front with
      | nil =>
          exfalso
          simp [chainNodes] at hchain
          rw [(chainNodes_eq_nil_iff i).mp hchain.2] at hterm'
          simp [terminalOf] at hterm'
      | cons a fr =>
          simp only [chainNodes, List.cons_append, List.cons.injEq] at hchain
          obtain ⟨h1, h2⟩ := hchain
          subst h1
          have hga : g (.withHttpStatus i c) = false := hfront _ (by simp)
          have hfr : ∀ x ∈ fr, g x = false := fun x hx => hfront x (by simp [hx])
          simp only [walkLoop, hga, Bool.false_eq_true, if_false]
          rw [walkLoop_log_append, ih fr hterm' h2 hfr]
          by_cases hgt : g t <;> simp [hgt]
  | withTags i kv ih =>
      have hterm' : terminalOf i = some t := by simpa [terminalOf] using hterm
      cases front with
      | nil =>
          exfalso
          simp [chainNodes] at hchain
          rw [(chainNodes_eq_nil_iff i).mp hchain.2] at hterm'
          simp [terminalOf] at hterm'
      | cons a fr =>
          simp only [chainNodes, List.cons_append, List.cons.injEq] at hchain
          obtain ⟨h1, h2⟩ := hchain
          subst h1
          have hga : g (.withTags i kv) = false := hfront _ (by simp)
          have hfr : ∀ x ∈ fr, g x = false := fun x hx => hfront x (by simp [hx])
          simp only [walkLoop, hga, Bool.false_eq_true, if_false]
          rw [walkLoop_log_append, ih fr hterm' h2 hfr]
          by_cases hgt : g t <;> simp [hgt]
  | extended i n kv ih =>
      have hterm' : terminalOf i = some t := by simpa [terminalOf] using hterm
      cases front with
      | nil =>
          exfalso
          simp [chainNodes] at hchain
          rw [(chainNodes_eq_nil_iff i).mp hchain.2] at hterm'
          simp [terminalOf] at hterm'
      | cons a fr =>
          simp only [chainNodes, List.cons_append, List.cons.injEq] at hchain
          obtain ⟨h1, h2⟩ := hchain
          subst h1
          have hga : g (.extended i n kv) = false := hfront _ (by simp)
          have hfr : ∀ x ∈ fr, g x = false := fun x hx => hfront x (by simp [hx])
          simp only [walkLoop, hga, Bool.false_eq_true, if_false]
          rw [walkLoop_log_append, ih fr hterm' h2 hfr]
          by_cases hgt : g t <;> simp [hgt]

/-- Reduction of the tagger probe at each concrete error kind. -/
theorem taggerOf_nil : taggerOf .nil = none := rfl

/-- Reduction of the tagger probe at a capability-free error. -/
theorem taggerOf_base (m : String) : taggerOf (.base m) = none := rfl

/-- Reduction of the tagger probe at a tag-only external error. -/
theorem taggerOf_taggedOnly (kv : List Val) (m : String) :
    taggerOf (.taggedOnly kv m) = some kv := rfl

/-- Reduction of the tagger probe at a human-message wrapper. -/
theorem taggerOf_withHumanMessage (i : Err) (m : String) :
    taggerOf (.withHumanMessage i m) = none := rfl

/-- Reduction of the tagger probe at a code wrapper. -/
theorem taggerOf_withErrorCode (i : Err) (c : Int) :
    taggerOf (.withErrorCode i c) = none := rfl

/-- Reduction of the tagger probe at a status wrapper. -/
theorem taggerOf_withHttpStatus (i : Err) (c : Int) :
    taggerOf (.withHttpStatus i c) = none := rfl

/-- Reduction of the tagger probe at a tag wrapper. -/
theorem taggerOf_withTags (i : Err) (kv : List Val) :
    taggerOf (.withTags i kv) = some kv := rfl

/-- Reduction of the tagger probe at a named/tagged wrapper. -/
theorem taggerOf_extended (i : Err) (n : String) (kv : List Val) :
    taggerOf (.extended i n kv) = some kv := rfl

/-- The tag-collecting loop appends `collectedTags` of the chain to any
starting accumulator and always reports `false`. -/
theorem walkLoop_tags (e : Err) (s : List Val) :
    walkLoop (fun allTags err =>
      match taggerOf err with
      | some ts => (allTags ++ ts, false)
      | none => (allTags, false)) s e = (s ++ collectedTags e, false) := by
  induction e generalizing s with
  | nil => simp [walkLoop, taggerOf_nil, collectedTags]
  | base m => simp [walkLoop, taggerOf_base, collectedTags]
  | taggedOnly kv m => simp [walkLoop, taggerOf_taggedOnly, collectedTags]
  | withHumanMessage i m ih => simp [walkLoop, taggerOf_withHumanMessage, collectedTags, ih]
  | withErrorCode i c ih => simp [walkLoop, taggerOf_withErrorCode, collectedTags, ih]
  | withHttpStatus i c ih => simp [walkLoop, taggerOf_withHttpStatus, collectedTags, ih]
  | withTags i kv ih => simp [walkLoop, taggerOf_withTags, collectedTags, ih]
  | extended i n kv ih => simp [walkLoop, taggerOf_extended, collectedTags, ih]

/-- `Tags` computes `collectedTags`. -/
theorem Tags_eq_collected (e : Err) : Tags e = collectedTags e := by
  by_cases h : e = Err.nil
  · subst h; rfl
  · unfold Tags walkErrorChain
    rw [if_neg h, walkLoop_tags]
    simp

/-- `GetTags` computes `collectedTags` as well. -/
theorem GetTags_eq_collected (e : Err) : GetTags e = collectedTags e := by
  unfold GetTags walkErrorChainN
  rw [walkLoop_tags]
  simp

/-- When the chain breaks at a tag-capable terminal node, the collected
tags end with that node's payload twice. -/
theorem collectedTags_terminal (e : Err) (kv : List Val) (m : String)
    (h : terminalOf e = some (.taggedOnly kv m)) :
    ∃ pre, collectedTags e = pre ++ (kv ++ kv) := by
  induction e with
  | nil => simp [terminalOf] at h
  | base m2 => simp [terminalOf] at h
  | taggedOnly kv2 m2 =>
      simp only [terminalOf, Option.some.injEq, Err.taggedOnly.injEq] at h
      obtain ⟨h1, h2⟩ := h
      subst h1
      exact ⟨[], by simp [collectedTags]⟩
  | withHumanMessage i m2 ih =>
      obtain ⟨pre, hp⟩ := ih (by simpa [terminalOf] using h)
      exact ⟨pre, by simpa [collectedTags] using hp⟩
  | withErrorCode i c ih =>
      obtain ⟨pre, hp⟩ := ih (by simpa [terminalOf] using h)
      exact ⟨pre, by simpa [collectedTags] using hp⟩
  | withHttpStatus i c ih =>
      obtain ⟨pre, hp⟩ := ih (by simpa [terminalOf] using h)
      exact ⟨pre, by simpa [collectedTags] using hp⟩
  | withTags i kv2 ih =>
      obtain ⟨pre, hp⟩ := ih (by simpa [terminalOf] using h)
      exact ⟨kv2 ++ pre, by simp [collectedTags, hp]⟩
  | extended i n kv2 ih =>
      obtain ⟨pre, hp⟩ := ih (by simpa [terminalOf] using h)
      exact ⟨kv2 ++ pre, by simp [collectedTags, hp]⟩

/-- C2 (amended): for the chain `withTags(withTags(base,k,v1),k,v2)` (so the
inner wrapper attaches `v1` and the outer wrapper attaches `v2`), the merged
map binds `k` to the inner wrapper's value `v1` — later-visited (more inner)
tag-capable nodes overwrite earlier (more outer) nodes' values on key
collision — while the tag list keeps every entry in outer-to-inner order,
`[k, v2, k, v1]`.  In the claim's instance the inner wrapper's value is the
string `"outer"`, so the lookup yields `"outer"`, not `"inner"`. -/
theorem tag_precedence_asymmetry :
    (∀ (b : String) (k v1 v2 : Val),
      mapLookup (TagMap (WithTags (WithTags (.base b) [k, v1]) [k, v2])) k = some v1) ∧
    (∀ (b : String) (k v1 v2 : Val),
      Tags (WithTags (WithTags (.base b) [k, v1]) [k, v2]) = [k, v2, k, v1]) := by
  constructor
  · intro b k v1 v2
    simp [TagMap, WithTags, walkErrorChain, walkLoop, tagMapStep,
      taggerOf_withTags, taggerOf_base, insertPairs, mapInsert, mapLookup]
  · intro b k v1 v2
    simp [Tags, WithTags, walkErrorChain, walkLoop,
      taggerOf_withTags, taggerOf_base]

/-- C2 counterexample: in the claim's chain the inner wrapper attaches the
string `"outer"`, so the merged map binds `"k"` to `"outer"`; the claimed
binding to `"inner"` is false. -/
theorem tagMap_binding_not_inner_string :
    mapLookup (TagMap (WithTags (WithTags (.base "b") [.str "k", .str "outer"])
      [.str "k", .str "inner"])) (.str "k") ≠ some (.str "inner") := by decide

/-- C3 (amended): the guarded walker returns false on a nil chain without
invoking the visitor; otherwise, when the chain breaks at a node `t` with no
unwrap capability and the visitor rejected every earlier node, `t` is
visited exactly once if its visit returns true (that result is the walk's
return value), and a second time by the final return expression if its visit
returns false, the walk returning that second invocation's result.  (The
named/tagged revision's unguarded walker instead invokes the visitor exactly
once on a nil chain — on the nil interface — and returns that result.) -/
theorem walk_contract :
    (∀ g : Err → Bool, walkLog g .nil = ([], false)) ∧
    (∀ g : Err → Bool,
      walkErrorChainN .nil (fun l x => (l ++ [x], g x)) [] = ([.nil], g .nil)) ∧
    (∀ (g : Err → Bool) (e t : Err) (front : List Err),
      terminalOf e = some t →
      chainNodes e = front ++ [t] →
      (∀ x ∈ front, g x = false) →
      walkLog g e = if g t then (front ++ [t], true) else (front ++ [t, t], false)) := by
  refine ⟨fun g => rfl, fun g => rfl, ?_⟩
  · intro g e t front h1 h2 h3
    have hne : e ≠ Err.nil := by
      intro h
      subst h
      simp [terminalOf] at h1
    unfold walkLog walkErrorChain
    rw [if_neg hne]
    exact walkLoop_log_terminal g e t front h1 h2 h3

/-- C3 witness: the amended contract at a one-wrapper chain whose visitor
always rejects; the terminal node appears twice in the log. -/
theorem walk_contract_witness :
    walkLog (fun _ => false) (.withTags (.base "r") [.str "a"])
      = ([.withTags (.base "r") [.str "a"], .base "r", .base "r"], false) := by
  have h := walk_contract.2.2 (fun _ => false) (.withTags (.base "r") [.str "a"])
    (.base "r") [.withTags (.base "r") [.str "a"]] (by decide) (by decide) (by decide)
  simpa using h

/-- C3 counterexample: on the chain consisting of the single no-unwrap node
`base "x"` with a visitor that always returns false, the stopping node is
visited twice, not exactly once. -/
theorem walk_terminal_double_visit :
    (walkLog (fun _ => false) (.base "x")).1.count (.base "x") = 2 ∧ (2 : Nat) ≠ 1 := by
  exact ⟨by decide, by decide⟩

/-- C7: `IsNamed` holds only for an `extended` node itself (no chain walk)
whose name is non-empty and equals the query; and on the chain
`outer(no name) -> named("N") -> root`, the any-depth check finds the name
while the root-cause check does not. -/
theorem isNamed_exact_and_depth :
    (∀ (e : Err) (name : String), IsNamed e name = true →
      ∃ i kv, e = .extended i name kv ∧ name ≠ "") ∧
    (IsAnyCauseNamed (NewTags (NewNamed (.base "root") "N" []) []) "N" = true ∧
     IsRootCauseNamed (NewTags (NewNamed (.base "root") "N" []) []) "N" = false) := by
  refine ⟨fun e name h => ?_, by decide, by decide⟩
  cases e with
  | extended i n kv =>
      simp only [IsNamed, extendedOf] at h
      by_cases hn : n = ""
      · rw [if_pos hn] at h
        exact absurd h (by simp)
      · rw [if_neg hn] at h
        have hnm : n = name := by simpa using h
        subst hnm
        exact ⟨i, kv, rfl, hn⟩
  | nil => simp [IsNamed, extendedOf] at h
  | base m => simp [IsNamed, extendedOf] at h
  | taggedOnly kv m => simp [IsNamed, extendedOf] at h
  | withHumanMessage i m => simp [IsNamed, extendedOf] at h
  | withErrorCode i c => simp [IsNamed, extendedOf] at h
  | withHttpStatus i c => simp [IsNamed, extendedOf] at h
  | withTags i kv => simp [IsNamed, extendedOf] at h

/-- C7 witness: the only-if direction at a concrete named node. -/
theorem isNamed_exact_witness :
    ∃ i kv, Err.extended .nil "N" [] = .extended i "N" kv ∧ ("N" : String) ≠ "" :=
  isNamed_exact_and_depth.1 (.extended .nil "N" []) "N" (by decide)

/-- C10: whenever the chain's terminal node (no unwrap capability) itself
carries tags, both list extractions return a sequence ending with that
payload twice — once from the loop visit and once from the walker's final
return expression. -/
theorem tags_terminal_counted_twice (e : Err) (kv : List Val) (m : String)
    (h : terminalOf e = some (.taggedOnly kv m)) :
    ∃ pre, Tags e = pre ++ (kv ++ kv) ∧ GetTags e = pre ++ (kv ++ kv) := by
  obtain ⟨pre, hp⟩ := collectedTags_terminal e kv m h
  refine ⟨pre, ?_, ?_⟩
  · rw [Tags_eq_collected, hp]
  · rw [GetTags_eq_collected, hp]

/-- C10 witness: a tag wrapper over a tag-capable no-unwrap leaf; the leaf's
payload appears twice at the end of both tag lists. -/
theorem tags_terminal_counted_twice_witness :
    ∃ pre, Tags (.withTags (.taggedOnly [Val.str "a"] "m") [Val.str "p", Val.str "q"])
        = pre ++ ([Val.str "a"] ++ [Val.str "a"])
      ∧ GetTags (.withTags (.taggedOnly [Val.str "a"] "m") [Val.str "p", Val.str "q"])
        = pre ++ ([Val.str "a"] ++ [Val.str "a"]) :=
  tags_terminal_counted_twice
    (.withTags (.taggedOnly [Val.str "a"] "m") [Val.str "p", Val.str "q"])
    [Val.str "a"] "m" (by decide)
